import Mathlib

/-!
Shallow embedding of the genapa-auditions bingo board server
(`server.ts`, socket.io event handlers) and proofs about its
state-synchronization core: the game-state store, the bingo evaluator,
the visibility filter and the reveal transition.

Conventions of the embedding:
* JS objects become structures; `Record<string, BoardState>` becomes an
  association list `List (String × BoardState)` (JS record keys are unique;
  `Object.entries` order is insertion order).
* `prediction: string[] | null` becomes `Option (List String)`.
* Mutating socket handlers become functions `GlobalState → ... → GlobalState × List Effect`,
  where the effect list records, in program order, the durable writes
  (`fs.writeFileSync`) and socket broadcasts (`io.emit` / `socket.emit`)
  the handler performs.
* `Math.random`-driven shuffling is modelled by passing the random draws
  explicitly (`rand : Nat → Nat`, reduced mod the live range, as
  `Math.floor(Math.random() * (i + 1))` always lands in `[0, i]`).
-/

namespace Bingo

/-- `interface BoardState` from the source: a member's board, the toggled
cell indices (in toggle order, as the JS array stores them), and the
optional locked prediction. -/
structure BoardState where
  board : List String
  selectedIndices : List Nat
  prediction : Option (List String)
deriving Repr, DecidableEq

/-- The process-wide mutable state touched by the socket handlers:
`gameState` (member name → BoardState) and the module-level `finalLineup`. -/
structure GlobalState where
  gameState : List (String × BoardState)
  finalLineup : List String
deriving Repr, DecidableEq

/-- `gameState[memberName]`: first association-list entry for the name. -/
def lookupMember (gs : List (String × BoardState)) (name : String) : Option BoardState :=
  match gs with
  | [] => none
  | (m, bs) :: rest => if m = name then some bs else lookupMember rest name

/-- In-place update of a member's entry (JS mutates the looked-up object,
so every alias of that record sees the new value). -/
def updateMember (gs : List (String × BoardState)) (name : String) (bs : BoardState) :
    List (String × BoardState) :=
  gs.map fun p => if p.1 = name then (p.1, bs) else p

/-! ## Bingo evaluator (`calculateBingoCount`, source lines 152–209) -/

/-- The row/column/diagonal counting loops of `calculateBingoCount`,
abstracted over the membership test of the `effectiveSelected` set. -/
def bingoCountOfPred (has : Nat → Bool) : Nat :=
  let rowFull := fun r => (List.range 5).all fun c => has (r * 5 + c)
  let colFull := fun c => (List.range 5).all fun r => has (r * 5 + c)
  let d1 := (List.range 5).all fun i => has (i * 6)
  let d2 := (List.range 5).all fun i => has ((i + 1) * 4)
  ((List.range 5).filter rowFull).length
    + ((List.range 5).filter colFull).length
    + (if d1 then 1 else 0)
    + (if d2 then 1 else 0)

/-- `calculateBingoCount(selected)`: build `effectiveSelected = Set(selected) ∪ {12}`
and count full rows, columns and the two diagonals. -/
def calculateBingoCount (selected : List Nat) : Nat :=
  bingoCountOfPred fun i => i == 12 || selected.contains i

/-- Row `r` of the fixed 5×5 grid (spec wording: `{r*5+0 .. r*5+4}`). -/
def rowLine (r : Nat) : List Nat := [r * 5, r * 5 + 1, r * 5 + 2, r * 5 + 3, r * 5 + 4]

/-- Column `c` of the fixed 5×5 grid (spec wording: `{c, c+5, c+10, c+15, c+20}`). -/
def colLine (c : Nat) : List Nat := [c, c + 5, c + 10, c + 15, c + 20]

/-- Spec-side description of the 12 winning lines of the fixed 5×5 grid
(index = row*5+col): 5 rows, 5 columns, 2 diagonals. -/
def allLines : List (List Nat) :=
  (List.range 5).map rowLine ++ (List.range 5).map colLine
    ++ [[0, 6, 12, 18, 24], [4, 8, 12, 16, 20]]

/-- Spec-side evaluator (`countCompletedLines` of the spec): the number of
lines all of whose cells are selected, index 12 counting as always selected. -/
def countCompletedLinesSpec (S : List Nat) : Nat :=
  (allLines.filter fun line => line.all fun i => i == 12 || S.contains i).length

/-- The counting loops of the implementation compute exactly the number of
completed lines among `allLines`, for any membership predicate. -/
theorem bingoCountOfPred_eq_filter (has : Nat → Bool) :
    bingoCountOfPred has = (allLines.filter fun l => l.all has).length := by
  have hrow : ((List.range 5).filter fun r => (List.range 5).all fun c => has (r * 5 + c))
      = (List.range 5).filter ((fun l => l.all has) ∘ rowLine) := by
    apply List.filter_congr
    intro r _
    simp [rowLine, List.range_succ, List.all_cons, Bool.and_assoc]
  have hcol : ((List.range 5).filter fun c => (List.range 5).all fun r => has (r * 5 + c))
      = (List.range 5).filter ((fun l => l.all has) ∘ colLine) := by
    apply List.filter_congr
    intro c _
    simp [colLine, List.range_succ, List.all_cons, Bool.and_assoc, Nat.add_comm]
  have hd1 : ((List.range 5).all fun i => has (i * 6)) = List.all [0, 6, 12, 18, 24] has := by
    simp [List.range_succ, List.all_cons]
  have hd2 : ((List.range 5).all fun i => has ((i + 1) * 4)) = List.all [4, 8, 12, 16, 20] has := by
    simp [List.range_succ, List.all_cons, Bool.and_assoc, Bool.and_comm, Bool.and_left_comm]
  have htail : ((List.filter (fun l => l.all has) [[0, 6, 12, 18, 24], [4, 8, 12, 16, 20]]).length)
      = (if List.all [0, 6, 12, 18, 24] has then 1 else 0)
        + (if List.all [4, 8, 12, 16, 20] has then 1 else 0) := by
    simp only [List.filter_cons, List.filter_nil]
    split <;> split <;> simp
  simp only [bingoCountOfPred, allLines, List.filter_append, List.length_append,
    List.filter_map, List.length_map, hrow, hcol, hd1, hd2, htail]
  omega

theorem calculateBingoCount_eq_spec (S : List Nat) :
    calculateBingoCount S = countCompletedLinesSpec S :=
  bingoCountOfPred_eq_filter _

/-- The evaluator depends only on the membership predicate of its input. -/
theorem calculateBingoCount_congr {S₁ S₂ : List Nat}
    (h : ∀ i, i ∈ S₁ ↔ i ∈ S₂) : calculateBingoCount S₁ = calculateBingoCount S₂ := by
  unfold calculateBingoCount
  congr 1
  funext i
  by_cases h12 : i = 12 <;> simp [h12, List.elem_eq_mem, h i]

/-- Adding the free-space index 12 to the input never changes the count. -/
theorem calculateBingoCount_cons_twelve (S : List Nat) :
    calculateBingoCount (12 :: S) = calculateBingoCount S := by
  unfold calculateBingoCount
  congr 1
  funext i
  by_cases h12 : i = 12 <;> simp [h12, List.elem_eq_mem]

/-- The count is at most 12 (there are only 12 candidate lines). -/
theorem calculateBingoCount_le_twelve (S : List Nat) : calculateBingoCount S ≤ 12 := by
  rw [calculateBingoCount_eq_spec]
  calc (allLines.filter fun line => line.all fun i => i == 12 || S.contains i).length
      ≤ allLines.length := List.length_filter_le _ _
    _ = 12 := by rfl

/-! ## Visibility filter (`getPublicState`, source lines 217–249) -/

/-- The `predictionData` object attached to each member's public view:
either the masked flag-only form, the post-reveal form with the verbatim
prediction and a score, or the pre-reveal own-prediction form. -/
inductive PredictionView where
  | flagOnly (hasPredicted : Bool)
  | revealed (hasPredicted : Bool) (prediction : Option (List String)) (score : Nat)
  | ownView (hasPredicted : Bool) (prediction : List String)
deriving Repr, DecidableEq

/-- One member's entry of `getPublicState`'s result: the spread of the
member's `BoardState` plus the derived `bingoCount` and the (masked or
unmasked) `prediction` field that overrides the stored one. -/
structure MemberView where
  board : List String
  selectedIndices : List Nat
  bingoCount : Nat
  prediction : PredictionView
deriving Repr, DecidableEq

/-- The post-reveal score: `state.prediction.filter(p => finalLineup.includes(p)).length`,
`0` when no prediction was stored. -/
def scoreOf (finalLineup : List String) (prediction : Option (List String)) : Nat :=
  match prediction with
  | some p => (p.filter fun x => finalLineup.contains x).length
  | none => 0

/-- The `predictionData` computation inside `getPublicState`'s loop. -/
def predictionViewFor (finalLineup : List String) (requestingUser : Option String)
    (member : String) (state : BoardState) : PredictionView :=
  if finalLineup.length > 0 then
    .revealed state.prediction.isSome state.prediction (scoreOf finalLineup state.prediction)
  else if requestingUser = some member ∧ state.prediction.isSome then
    .ownView true (state.prediction.getD [])
  else
    .flagOnly state.prediction.isSome

/-- The body of `getPublicState`'s `for (const [member, state] of ...)` loop:
spread the state, add `bingoCount`, override `prediction`. -/
def memberEntryView (finalLineup : List String) (requestingUser : Option String)
    (p : String × BoardState) : String × MemberView :=
  (p.1, { board := p.2.board
          selectedIndices := p.2.selectedIndices
          bingoCount := calculateBingoCount p.2.selectedIndices
          prediction := predictionViewFor finalLineup requestingUser p.1 p.2 })

/-- `getPublicState(requestingUser)`: augment every member's state with the
bingo count and mask the prediction per viewer identity and reveal state. -/
def getPublicState (st : GlobalState) (requestingUser : Option String) :
    List (String × MemberView) :=
  st.gameState.map (memberEntryView st.finalLineup requestingUser)

/-! ## Socket handlers as state transformers with explicit effect traces -/

/-- An observable side effect of a handler, recorded in program order:
the synchronous durable writes and the socket emits. -/
inductive Effect where
  | saveGameState
  | writeLineupFile (content : List String)
  | emitInit (members groups : List String) (gameState : List (String × MemberView))
      (finalLineup : List String)
  | emitPredictionUpdate (memberName : String) (hasPredicted : Bool)
  | emitGameOver (finalLineup : List String) (gameState : List (String × MemberView))
  | emitUpdateState (memberName : String) (selectedIndices : List Nat) (bingoCount : Nat)
  | emitBingoAnnouncement (memberName : String) (count : Nat)
deriving Repr, DecidableEq

/-- Is the effect a durable write (`fs.writeFileSync`)? -/
def Effect.isDurableWrite : Effect → Bool
  | .saveGameState => true
  | .writeLineupFile _ => true
  | _ => false

/-- Is the effect a broadcast to connected sessions (`io.emit`)? -/
def Effect.isBroadcast : Effect → Bool
  | .saveGameState => false
  | .writeLineupFile _ => false
  | .emitInit _ _ _ _ => false
  | _ => true

/-- `socket.on('submitPrediction')` (source lines 269–285). -/
def submitPrediction (st : GlobalState) (memberName : String) (prediction : List String) :
    GlobalState × List Effect :=
  match lookupMember st.gameState memberName with
  | some bs =>
    if bs.prediction = none then
      if prediction.length = 12 then
        ({ st with gameState :=
          updateMember st.gameState memberName { bs with prediction := some prediction } },
         [Effect.saveGameState, Effect.emitPredictionUpdate memberName true])
      else (st, [])
    else (st, [])
  | none => (st, [])

/-- `socket.on('submitFinalLineup')` (source lines 287–300): guard
`data.lineup && data.lineup.length > 0`, assign, write the lineup file,
broadcast `gameOver` with the now-unmasked view. -/
def submitFinalLineup (st : GlobalState) (lineup : List String) :
    GlobalState × List Effect :=
  if lineup.length > 0 then
    let st' := { st with finalLineup := lineup }
    (st', [Effect.writeLineupFile lineup,
           Effect.emitGameOver lineup (getPublicState st' none)])
  else (st, [])

/-- The membership flip performed by the `toggleCell` handler: if `index`
occurs, `indexOf`/`splice` removes its first occurrence; otherwise `push`
appends it. -/
def flipIndex (selectedIndices : List Nat) (index : Nat) : List Nat :=
  if selectedIndices.contains index then selectedIndices.erase index
  else selectedIndices ++ [index]

/-- `socket.on('toggleCell')` (source lines 302–338): flip membership of
`index` in the member's `selectedIndices` (no index validation!), broadcast
`updateState`, possibly `bingoAnnouncement`, then save. -/
def toggleCell (st : GlobalState) (memberName : String) (index : Nat) :
    GlobalState × List Effect :=
  match lookupMember st.gameState memberName with
  | some ms =>
    let oldBingoCount := calculateBingoCount ms.selectedIndices
    let newSelected := flipIndex ms.selectedIndices index
    let newBingoCount := calculateBingoCount newSelected
    ({ st with gameState :=
          updateMember st.gameState memberName { ms with selectedIndices := newSelected } },
     [Effect.emitUpdateState memberName newSelected newBingoCount]
       ++ (if newBingoCount > oldBingoCount
           then [Effect.emitBingoAnnouncement memberName newBingoCount] else [])
       ++ [Effect.saveGameState])
  | none => (st, [])

/-- The unconditional `socket.emit('init', ...)` run for every fresh
connection before any client event is handled (source lines 262–267):
the view is computed with no requesting user. -/
def onConnection (members groups : List String) (st : GlobalState) : List Effect :=
  [Effect.emitInit members groups (getPublicState st none) st.finalLineup]

/-- `writesPrecedeBroadcasts tr seen`: every broadcast in `tr` is preceded
by a durable write (`seen` records whether one has already occurred). -/
def writesPrecedeBroadcasts : List Effect → Bool → Bool
  | [], _ => true
  | e :: rest, seen =>
    (!e.isBroadcast || seen) && writesPrecedeBroadcasts rest (seen || e.isDurableWrite)

/-! ## Helper lemmas -/

theorem updateMember_cons (m : String) (b : BoardState) (rest : List (String × BoardState))
    (name : String) (bs' : BoardState) :
    updateMember ((m, b) :: rest) name bs'
      = (if m = name then (m, bs') else (m, b)) :: updateMember rest name bs' := rfl

theorem lookupMember_updateMember_self (gs : List (String × BoardState)) (name : String)
    (bs bs' : BoardState) (h : lookupMember gs name = some bs) :
    lookupMember (updateMember gs name bs') name = some bs' := by
  induction gs with
  | nil => simp [lookupMember] at h
  | cons p rest ih =>
    obtain ⟨m, b⟩ := p
    rw [updateMember_cons]
    by_cases hp : m = name
    · subst hp
      rw [if_pos rfl]
      simp [lookupMember]
    · rw [if_neg hp]
      simp only [lookupMember, if_neg hp] at h ⊢
      exact ih h

theorem lookupMember_updateMember_none (gs : List (String × BoardState)) (name : String)
    (bs' : BoardState) :
    lookupMember (updateMember gs name bs') name = none ↔ lookupMember gs name = none := by
  induction gs with
  | nil => simp [lookupMember, updateMember]
  | cons p rest ih =>
    obtain ⟨m, b⟩ := p
    rw [updateMember_cons]
    by_cases hp : m = name
    · subst hp
      rw [if_pos rfl]
      simp [lookupMember]
    · rw [if_neg hp]
      simp only [lookupMember, if_neg hp]
      exact ih

/-- Flipping an index twice restores membership exactly (given no duplicates). -/
theorem flipIndex_flipIndex_mem (l : List Nat) (hnd : l.Nodup) (i : Nat) :
    ∀ j, j ∈ flipIndex (flipIndex l i) i ↔ j ∈ l := by
  intro j
  by_cases hi : i ∈ l
  · have h1 : flipIndex l i = l.erase i := by simp [flipIndex, List.elem_eq_mem, hi]
    have hni : i ∉ l.erase i := hnd.not_mem_erase
    have h2 : flipIndex (l.erase i) i = l.erase i ++ [i] := by
      simp [flipIndex, List.elem_eq_mem, hni]
    rw [h1, h2]
    simp only [List.mem_append, List.mem_singleton, hnd.mem_erase_iff]
    constructor
    · rintro (⟨_, hj⟩ | rfl) <;> [exact hj; exact hi]
    · intro hj
      by_cases hji : j = i
      · exact Or.inr hji
      · exact Or.inl ⟨hji, hj⟩
  · have h1 : flipIndex l i = l ++ [i] := by simp [flipIndex, List.elem_eq_mem, hi]
    have h2 : flipIndex (l ++ [i]) i = l := by
      have : (l ++ [i]).contains i = true := by simp [List.elem_eq_mem]
      simp only [flipIndex, this, if_pos rfl]
      rw [List.erase_append_right _ hi]
      simp
    rw [h1, h2]

/-- Flipping preserves freedom from duplicates. -/
theorem flipIndex_nodup (l : List Nat) (hnd : l.Nodup) (i : Nat) :
    (flipIndex l i).Nodup := by
  by_cases hi : i ∈ l
  · simpa [flipIndex, List.elem_eq_mem, hi] using hnd.erase i
  · have : (flipIndex l i) = l ++ [i] := by simp [flipIndex, List.elem_eq_mem, hi]
    rw [this]
    exact ((List.perm_append_singleton i l).symm.nodup (List.nodup_cons.mpr ⟨hi, hnd⟩))

/-! ## Board generator (new-member branch of `members.forEach`, source
lines 114–143).  `Math.random` is modelled by an explicit stream of draws
`rand : Nat → Nat`; `Math.floor(Math.random() * (i + 1))` is `rand i % (i + 1)`,
which ranges over exactly the same values `0 .. i`. -/

/-- `[a[i], a[j]] = [a[j], a[i]]`: swap two positions (no-op when either
index is out of range, which never happens in the loop). -/
def listSwap (l : List String) (i j : Nat) : List String :=
  match l[i]?, l[j]? with
  | some x, some y => (l.set i y).set j x
  | _, _ => l

/-- The Fisher–Yates loop `for (let i = currentTerms.length - 1; i > 0; i--)`. -/
def fyLoop (rand : Nat → Nat) : Nat → List String → List String
  | 0, l => l
  | i + 1, l => fyLoop rand i (listSwap l (i + 1) (rand (i + 1) % (i + 2)))

/-- The whole shuffle of `currentTerms` (a copy of `terms`). -/
def fisherYates (rand : Nat → Nat) (l : List String) : List String :=
  match l.length with
  | 0 => l
  | n + 1 => fyLoop rand n l

/-- `boardTerms`: the first 24 of the shuffled pool when it has ≥ 24 terms,
else the whole pool. -/
def newMemberBoardTerms (terms : List String) (rand : Nat → Nat) : List String :=
  if terms.length ≥ 24 then (fisherYates rand terms).take 24 else terms

/-- The generated board: `boardTerms.splice(12, 0, "FREE SPACE")` when at
least 12 terms precede index 12, else `boardTerms.push("FREE SPACE")`. -/
def newMemberBoard (terms : List String) (rand : Nat → Nat) : List String :=
  let boardTerms := newMemberBoardTerms terms rand
  if boardTerms.length ≥ 12 then boardTerms.insertIdx 12 "FREE SPACE"
  else boardTerms ++ ["FREE SPACE"]

theorem cons_set_perm (a : String) :
    ∀ (t : List String) (k : Nat) (y : String),
      t[k]? = some y → List.Perm (y :: t.set k a) (a :: t) := by
  intro t
  induction t with
  | nil => intro k y h; simp at h
  | cons b t' ih =>
    intro k y h
    match k with
    | 0 =>
      simp only [List.getElem?_cons_zero, Option.some.injEq] at h
      subst h
      simpa using List.Perm.swap a b t'
    | k' + 1 =>
      simp only [List.getElem?_cons_succ] at h
      have step1 : List.Perm (y :: (b :: t').set (k' + 1) a) (b :: y :: t'.set k' a) := by
        simpa using List.Perm.swap b y (t'.set k' a)
      have step2 : List.Perm (b :: y :: t'.set k' a) (b :: a :: t') := (ih k' y h).cons b
      have step3 : List.Perm (b :: a :: t') (a :: b :: t') := List.Perm.swap a b t'
      exact (step1.trans step2).trans step3

theorem set_set_perm :
    ∀ (l : List String) (i j : Nat) (x y : String),
      l[i]? = some x → l[j]? = some y → List.Perm ((l.set i y).set j x) l := by
  intro l
  induction l with
  | nil => intro i j x y h1 _; simp at h1
  | cons a t ih =>
    intro i j x y h1 h2
    match i, j with
    | 0, 0 =>
      simp only [List.getElem?_cons_zero, Option.some.injEq] at h1 h2
      subst h1
      subst h2
      simp
    | 0, k + 1 =>
      simp only [List.getElem?_cons_zero, Option.some.injEq] at h1
      simp only [List.getElem?_cons_succ] at h2
      subst h1
      simpa using cons_set_perm a t k y h2
    | m + 1, 0 =>
      simp only [List.getElem?_cons_zero, Option.some.injEq] at h2
      simp only [List.getElem?_cons_succ] at h1
      subst h2
      simpa using cons_set_perm a t m x h1
    | m + 1, k + 1 =>
      simp only [List.getElem?_cons_succ] at h1 h2
      simpa using (ih m k x y h1 h2).cons a

theorem listSwap_perm (l : List String) (i j : Nat) : List.Perm (listSwap l i j) l := by
  unfold listSwap
  cases hx : l[i]? with
  | none => exact List.Perm.refl l
  | some x =>
    cases hy : l[j]? with
    | none => exact List.Perm.refl l
    | some y => exact set_set_perm l i j x y hx hy

theorem fyLoop_perm (rand : Nat → Nat) : ∀ (i : Nat) (l : List String),
    List.Perm (fyLoop rand i l) l := by
  intro i
  induction i with
  | zero => intro l; exact List.Perm.refl l
  | succ i ih =>
    intro l
    exact (ih _).trans (listSwap_perm l (i + 1) (rand (i + 1) % (i + 2)))

theorem fisherYates_perm (rand : Nat → Nat) (l : List String) :
    List.Perm (fisherYates rand l) l := by
  unfold fisherYates
  cases hl : l.length with
  | zero => exact List.Perm.refl l
  | succ n => exact fyLoop_perm rand n l

/-! ## Claim theorems -/

/-- C5: `calculateBingoCount` returns the number of completed lines among
the 5 rows, 5 columns and 2 diagonals of the fixed 5×5 grid with index 12
treated as always selected; it is invariant under adding 12 to the input,
depends only on the membership set of its input (not order or duplicates),
is bounded by 12, and takes the documented concrete values. -/
theorem bingo_evaluator_correct :
    (∀ S : List Nat, calculateBingoCount S = countCompletedLinesSpec S)
    ∧ (∀ S : List Nat, calculateBingoCount (12 :: S) = calculateBingoCount S)
    ∧ (∀ S₁ S₂ : List Nat, (∀ i, i ∈ S₁ ↔ i ∈ S₂) →
        calculateBingoCount S₁ = calculateBingoCount S₂)
    ∧ (∀ S : List Nat, calculateBingoCount S ≤ 12)
    ∧ calculateBingoCount [0, 1, 2, 3, 4] = 1
    ∧ calculateBingoCount [0, 5, 10, 15, 20] = 1
    ∧ calculateBingoCount [0, 6, 12, 18, 24] = 1
    ∧ calculateBingoCount [4, 8, 12, 16, 20] = 1
    ∧ calculateBingoCount [] = 0 :=
  ⟨calculateBingoCount_eq_spec, calculateBingoCount_cons_twelve,
   fun _ _ h => calculateBingoCount_congr h, calculateBingoCount_le_twelve,
   by decide, by decide, by decide, by decide, by decide⟩

/-- Witness for C5: the set-dependence conjunct applied to a concrete
reordered, duplicated input. -/
theorem bingo_evaluator_correct_witness :
    calculateBingoCount [3, 3, 7] = calculateBingoCount [7, 3] :=
  bingo_evaluator_correct.2.2.1 [3, 3, 7] [7, 3] (by intro i; simp; tauto)

/-- C1 as stated is false: a second `submitFinalLineup` with a different
non-empty lineup overwrites the already-revealed non-empty `finalLineup`. -/
theorem submitFinalLineup_overwrites :
    (submitFinalLineup ⟨[], []⟩ ["Group A"]).1.finalLineup = ["Group A"]
    ∧ (submitFinalLineup (submitFinalLineup ⟨[], []⟩ ["Group A"]).1 ["Group B"]).1.finalLineup
        = ["Group B"]
    ∧ (["Group B"] : List String) ≠ ["Group A"] := by
  refine ⟨rfl, rfl, ?_⟩
  decide

/-- C1 amended: an empty lineup is a silent no-op; a non-empty lineup
always sets `finalLineup` to it (overwriting any previous reveal); no
operation ever returns a non-empty `finalLineup` to empty, but a later
non-empty `submitFinalLineup` can still change it. -/
theorem submitFinalLineup_amended (st : GlobalState) (lineup : List String) :
    (lineup = [] → submitFinalLineup st lineup = (st, []))
    ∧ (lineup ≠ [] → (submitFinalLineup st lineup).1.finalLineup = lineup)
    ∧ (st.finalLineup ≠ [] → (submitFinalLineup st lineup).1.finalLineup ≠ [])
    ∧ (∀ name picks, (submitPrediction st name picks).1.finalLineup = st.finalLineup)
    ∧ (∀ name index, (toggleCell st name index).1.finalLineup = st.finalLineup) := by
  refine ⟨?_, ?_, ?_, ?_, ?_⟩
  · intro h
    subst h
    simp [submitFinalLineup]
  · intro h
    rw [submitFinalLineup, if_pos (by simpa using List.length_pos.mpr h)]
  · intro h
    by_cases hl : lineup = []
    · subst hl
      simpa [submitFinalLineup] using h
    · rw [submitFinalLineup, if_pos (by simpa using List.length_pos.mpr hl)]
      exact hl
  · intro name picks
    rw [submitPrediction]
    cases lookupMember st.gameState name with
    | none => rfl
    | some bs =>
      dsimp only
      split_ifs <;> rfl
  · intro name index
    rw [toggleCell]
    cases lookupMember st.gameState name <;> rfl

/-- Witness for C1's amended theorem at a concrete revealed state. -/
theorem submitFinalLineup_amended_witness :
    (submitFinalLineup ⟨[], ["X"]⟩ ["Y"]).1.finalLineup = ["Y"]
    ∧ (submitFinalLineup ⟨[], ["X"]⟩ ["Y"]).1.finalLineup ≠ [] :=
  ⟨(submitFinalLineup_amended ⟨[], ["X"]⟩ ["Y"]).2.1 (by decide),
   (submitFinalLineup_amended ⟨[], ["X"]⟩ ["Y"]).2.2.1 (by decide)⟩

/-- C2 as stated is false: the handler validates only that the member has a
`BoardState`, never the index; an out-of-range index is applied, broadcast,
and left in `selectedIndices`. -/
theorem toggleCell_no_index_validation :
    (toggleCell ⟨[("alice", ⟨[], [], none⟩)], []⟩ "alice" 100).1.gameState
      = [("alice", ⟨[], [100], none⟩)]
    ∧ (toggleCell ⟨[("alice", ⟨[], [], none⟩)], []⟩ "alice" 100).2 ≠ []
    ∧ ¬(100 ≤ 24) := by
  refine ⟨rfl, ?_, by decide⟩
  decide

/-- C2 amended: `toggleCell` is a silent no-op exactly when the member has
no `BoardState`; otherwise membership of the index — with no range check —
is flipped and a broadcast happens, and duplicate-freeness (but not the
range bound) of `selectedIndices` is preserved. -/
theorem toggleCell_amended (st : GlobalState) (name : String) (index : Nat) :
    (lookupMember st.gameState name = none → toggleCell st name index = (st, []))
    ∧ (∀ bs, lookupMember st.gameState name = some bs →
        lookupMember (toggleCell st name index).1.gameState name
            = some { bs with selectedIndices := flipIndex bs.selectedIndices index }
        ∧ (toggleCell st name index).2 ≠ []
        ∧ (bs.selectedIndices.Nodup → (flipIndex bs.selectedIndices index).Nodup)) := by
  constructor
  · intro h
    rw [toggleCell, h]
  · intro bs h
    rw [toggleCell, h]
    exact ⟨lookupMember_updateMember_self st.gameState name bs _ h, by simp,
      fun hnd => flipIndex_nodup bs.selectedIndices hnd index⟩

/-- Witness for C2's amended theorem at a concrete member and index. -/
theorem toggleCell_amended_witness :
    lookupMember (toggleCell ⟨[("bo", ⟨[], [3], none⟩)], []⟩ "bo" 3).1.gameState "bo"
      = some ⟨[], flipIndex [3] 3, none⟩ :=
  ((toggleCell_amended ⟨[("bo", ⟨[], [3], none⟩)], []⟩ "bo" 3).2 ⟨[], [3], none⟩ (by decide)).1

/-- C3: `submitPrediction` is a one-time lock: it is a silent no-op when the
member already has a prediction or the payload length differs from 12, and
otherwise stores the payload verbatim, saves, broadcasts only the flag, and
renders every later submission for that member a silent no-op. -/
theorem submitPrediction_one_time_lock (st : GlobalState) (name : String) (bs : BoardState)
    (hmem : lookupMember st.gameState name = some bs) (picks : List String) :
    (bs.prediction ≠ none → submitPrediction st name picks = (st, []))
    ∧ (picks.length ≠ 12 → submitPrediction st name picks = (st, []))
    ∧ (bs.prediction = none → picks.length = 12 →
        lookupMember (submitPrediction st name picks).1.gameState name
            = some { bs with prediction := some picks }
        ∧ (submitPrediction st name picks).2
            = [Effect.saveGameState, Effect.emitPredictionUpdate name true]
        ∧ ∀ picks₂, submitPrediction (submitPrediction st name picks).1 name picks₂
            = ((submitPrediction st name picks).1, [])) := by
  refine ⟨?_, ?_, ?_⟩
  · intro h
    rw [submitPrediction, hmem]
    dsimp only
    rw [if_neg h]
  · intro h
    rw [submitPrediction, hmem]
    dsimp only
    split_ifs <;> rfl
  · intro h1 h2
    rw [submitPrediction, hmem]
    dsimp only
    rw [if_pos h1, if_pos h2]
    refine ⟨lookupMember_updateMember_self st.gameState name bs _ hmem, rfl, ?_⟩
    intro picks₂
    have hlook : lookupMember
        (updateMember st.gameState name { bs with prediction := some picks }) name
        = some { bs with prediction := some picks } :=
      lookupMember_updateMember_self st.gameState name bs _ hmem
    rw [submitPrediction]
    dsimp only
    rw [hlook]
    dsimp only
    rw [if_neg (by simp)]

/-- Witness for C3 at a concrete fresh member and 12-pick payload. -/
theorem submitPrediction_one_time_lock_witness :
    lookupMember (submitPrediction ⟨[("cy", ⟨[], [], none⟩)], []⟩ "cy"
        ["a", "b", "c", "d", "e", "f", "g", "h", "i", "j", "k", "l"]).1.gameState "cy"
      = some ⟨[], [], some ["a", "b", "c", "d", "e", "f", "g", "h", "i", "j", "k", "l"]⟩ :=
  ((submitPrediction_one_time_lock ⟨[("cy", ⟨[], [], none⟩)], []⟩ "cy" ⟨[], [], none⟩
      (by decide) ["a", "b", "c", "d", "e", "f", "g", "h", "i", "j", "k", "l"]).2.2
    rfl (by decide)).1

/-- Pre-reveal, the per-member view depends on the prediction only through
`isSome` for non-self viewers, and only through the full value for self. -/
theorem predictionViewFor_nil_congr (v : Option String) (m : String) (b₁ b₂ : BoardState)
    (hps : b₁.prediction.isSome = b₂.prediction.isSome)
    (hpred : v = some m → b₁.prediction = b₂.prediction) :
    predictionViewFor [] v m b₁ = predictionViewFor [] v m b₂ := by
  unfold predictionViewFor
  simp only [List.length_nil, gt_iff_lt, lt_self_iff_false, if_false]
  by_cases hv : v = some m
  · rw [hpred hv]
  · rw [if_neg (fun hc => hv hc.1), if_neg (fun hc => hv hc.1), hps]

/-- Pre-reveal views are determined entry-by-entry by everything except the
prediction contents of members other than the viewer. -/
theorem map_memberEntryView_congr (viewer : Option String) :
    ∀ (gs₁ gs₂ : List (String × BoardState)),
      List.Forall₂ (fun p q => p.1 = q.1 ∧ p.2.board = q.2.board
        ∧ p.2.selectedIndices = q.2.selectedIndices
        ∧ p.2.prediction.isSome = q.2.prediction.isSome
        ∧ (viewer = some p.1 → p.2.prediction = q.2.prediction)) gs₁ gs₂ →
      gs₁.map (memberEntryView [] viewer) = gs₂.map (memberEntryView [] viewer) := by
  intro gs₁ gs₂ hrel
  induction hrel with
  | nil => rfl
  | cons hpq hrest ih =>
    rename_i p q l₁ l₂
    simp only [List.map_cons, ih]
    congr 1
    obtain ⟨m, b₁⟩ := p
    obtain ⟨m₂, b₂⟩ := q
    obtain ⟨hm, hb, hs, hps, hpred⟩ := hpq
    dsimp only at hm hb hs hps hpred
    subst hm
    unfold memberEntryView
    dsimp only
    rw [hb, hs, predictionViewFor_nil_congr viewer m b₁ b₂ hps hpred]

/-- C4: prediction masking.  (a) Pre-reveal, the view of any member other
than the viewer exposes the board, selections and bingo count but reduces
the prediction to the `hasPredicted` boolean.  (b) Noninterference: two
pre-reveal states that differ only in other members' prediction contents
(same `hasPredicted` bits) yield identical views for the viewer.  (c) Once
`finalLineup` is non-empty, every viewer sees every member's verbatim
prediction plus a numeric score. -/
theorem prediction_masking :
    (∀ (viewer : Option String) (m : String) (bs : BoardState), viewer ≠ some m →
      memberEntryView [] viewer (m, bs)
        = (m, ⟨bs.board, bs.selectedIndices, calculateBingoCount bs.selectedIndices,
               .flagOnly bs.prediction.isSome⟩))
    ∧ (∀ (st₁ st₂ : GlobalState) (viewer : Option String),
        st₁.finalLineup = [] → st₂.finalLineup = [] →
        List.Forall₂ (fun p q => p.1 = q.1 ∧ p.2.board = q.2.board
          ∧ p.2.selectedIndices = q.2.selectedIndices
          ∧ p.2.prediction.isSome = q.2.prediction.isSome
          ∧ (viewer = some p.1 → p.2.prediction = q.2.prediction))
          st₁.gameState st₂.gameState →
        getPublicState st₁ viewer = getPublicState st₂ viewer)
    ∧ (∀ (st : GlobalState) (viewer : Option String), st.finalLineup ≠ [] →
        getPublicState st viewer = st.gameState.map fun p => (p.1,
          ⟨p.2.board, p.2.selectedIndices, calculateBingoCount p.2.selectedIndices,
           .revealed p.2.prediction.isSome p.2.prediction
             (scoreOf st.finalLineup p.2.prediction)⟩)) := by
  refine ⟨?_, ?_, ?_⟩
  · intro viewer m bs hv
    unfold memberEntryView predictionViewFor
    rw [if_neg (by simp), if_neg (fun hc => hv hc.1)]
  · intro st₁ st₂ viewer h₁ h₂ hrel
    unfold getPublicState
    rw [h₁, h₂]
    exact map_memberEntryView_congr viewer st₁.gameState st₂.gameState hrel
  · intro st viewer hrev
    unfold getPublicState
    apply List.map_congr_left
    intro p _
    unfold memberEntryView predictionViewFor
    rw [if_pos (by simpa using List.length_pos.mpr hrev)]

/-- Witness for C4: a hidden change of another member's prediction contents
is invisible to the viewer before reveal. -/
theorem prediction_masking_witness :
    getPublicState ⟨[("ann", ⟨[], [], some ["P"]⟩)], []⟩ (some "vic")
      = getPublicState ⟨[("ann", ⟨[], [], some ["Q"]⟩)], []⟩ (some "vic") :=
  prediction_masking.2.1 ⟨[("ann", ⟨[], [], some ["P"]⟩)], []⟩
    ⟨[("ann", ⟨[], [], some ["Q"]⟩)], []⟩ (some "vic") rfl rfl
    (List.Forall₂.cons ⟨rfl, rfl, rfl, rfl, fun h => absurd h (by decide)⟩ List.Forall₂.nil)

/-- C6 as stated is false: on an accepted `toggleCell`, the `updateState`
broadcast is emitted before `saveGameState` runs. -/
theorem toggle_broadcast_before_save :
    (toggleCell ⟨[("alice", ⟨[], [], none⟩)], []⟩ "alice" 0).2
      = [Effect.emitUpdateState "alice" [0] 0, Effect.saveGameState]
    ∧ writesPrecedeBroadcasts
        (toggleCell ⟨[("alice", ⟨[], [], none⟩)], []⟩ "alice" 0).2 false = false := by
  refine ⟨?_, ?_⟩ <;> decide

/-- C6 amended: the durable write precedes every broadcast for
`submitPrediction` and `submitFinalLineup`, but for every accepted
`toggleCell` the broadcast precedes the durable write. -/
theorem write_through_amended (st : GlobalState) :
    (∀ name picks, writesPrecedeBroadcasts (submitPrediction st name picks).2 false = true)
    ∧ (∀ lineup, writesPrecedeBroadcasts (submitFinalLineup st lineup).2 false = true)
    ∧ (∀ name index bs, lookupMember st.gameState name = some bs →
        writesPrecedeBroadcasts (toggleCell st name index).2 false = false) := by
  refine ⟨?_, ?_, ?_⟩
  · intro name picks
    rw [submitPrediction]
    cases lookupMember st.gameState name with
    | none => rfl
    | some bs =>
      dsimp only
      split_ifs <;> rfl
  · intro lineup
    rw [submitFinalLineup]
    split_ifs <;> rfl
  · intro name index bs h
    rw [toggleCell, h]
    dsimp only
    rfl

/-- Witness for C6's amended theorem on a concrete accepted toggle. -/
theorem write_through_amended_witness :
    writesPrecedeBroadcasts
      (toggleCell ⟨[("dee", ⟨[], [], none⟩)], []⟩ "dee" 3).2 false = false :=
  (write_through_amended ⟨[("dee", ⟨[], [], none⟩)], []⟩).2.2 "dee" 3
    ⟨[], [], none⟩ (by decide)

/-- C7 as stated is false: with lineup `["A"]` (a single matching entry) a
prediction containing "A" twice is presented with score 2, so duplicates are
not capped at one per matching lineup entry. -/
theorem scoring_overcounts_duplicates :
    scoreOf ["A"] (some ["A", "A", "b", "c", "d", "e", "f", "g", "h", "i", "j", "k"]) = 2
    ∧ getPublicState
        ⟨[("bob", ⟨[], [], some ["A", "A", "b", "c", "d", "e", "f", "g", "h", "i", "j", "k"]⟩)],
         ["A"]⟩ none
      = [("bob", ⟨[], [], 0,
          .revealed true (some ["A", "A", "b", "c", "d", "e", "f", "g", "h", "i", "j", "k"]) 2⟩)]
    ∧ (["A"] : List String).length = 1
    ∧ ¬(2 ≤ 1) := by
  refine ⟨by decide, by decide, rfl, by decide⟩

/-- C7 amended: post-reveal, the presented score counts the prediction
entries (with multiplicity) that occur anywhere in `finalLineup`; a member
with no prediction scores 0; on duplicate-free predictions this coincides
with the size of the intersection of the pick set and the lineup set. -/
theorem scoring_amended (lineup : List String) :
    (∀ picks : List String,
        scoreOf lineup (some picks) = (picks.filter fun x => decide (x ∈ lineup)).length)
    ∧ scoreOf lineup none = 0
    ∧ (∀ picks : List String, picks.Nodup →
        scoreOf lineup (some picks) = (picks.toFinset ∩ lineup.toFinset).card)
    ∧ (∀ (st : GlobalState) (viewer : Option String),
        st.finalLineup = lineup → lineup ≠ [] →
        getPublicState st viewer = st.gameState.map fun p => (p.1,
          ⟨p.2.board, p.2.selectedIndices, calculateBingoCount p.2.selectedIndices,
           .revealed p.2.prediction.isSome p.2.prediction (scoreOf lineup p.2.prediction)⟩)) := by
  have hfilter : ∀ picks : List String,
      scoreOf lineup (some picks) = (picks.filter fun x => decide (x ∈ lineup)).length := by
    intro picks
    unfold scoreOf
    dsimp only
    congr 1
    apply List.filter_congr
    intro x _
    simp [List.elem_eq_mem]
  refine ⟨hfilter, rfl, ?_, ?_⟩
  · intro picks hnd
    rw [hfilter]
    rw [← List.toFinset_card_of_nodup (hnd.filter _), List.toFinset_filter]
    congr 1
    rw [← Finset.filter_mem_eq_inter]
    apply Finset.filter_congr
    intro x _
    simp [List.mem_toFinset]
  · intro st viewer hlin hne
    subst hlin
    unfold getPublicState
    apply List.map_congr_left
    intro p _
    unfold memberEntryView predictionViewFor
    rw [if_pos (by simpa using List.length_pos.mpr hne)]

/-- Witness for C7's amended theorem: duplicate-free predictions score as
set intersections. -/
theorem scoring_amended_witness :
    scoreOf ["A", "B"] (some ["A", "c", "d"])
      = ((["A", "c", "d"] : List String).toFinset ∩ (["A", "B"] : List String).toFinset).card :=
  (scoring_amended ["A", "B"]).2.2.1 ["A", "c", "d"] (by decide)

/-- The state component of an accepted toggle: the member's entry with the
index flipped. -/
theorem toggleCell_state_lookup (st : GlobalState) (name : String) (index : Nat)
    (bs : BoardState) (hmem : lookupMember st.gameState name = some bs) :
    lookupMember (toggleCell st name index).1.gameState name
      = some { bs with selectedIndices := flipIndex bs.selectedIndices index } := by
  rw [toggleCell, hmem]
  exact lookupMember_updateMember_self st.gameState name bs _ hmem

/-- C8: toggling the same index twice in succession (no other operations in
between) restores the member's selection state — same membership of every
index — along with the board, the prediction and the bingo count. -/
theorem toggle_twice_involution (st : GlobalState) (name : String) (bs : BoardState)
    (hmem : lookupMember st.gameState name = some bs) (hnd : bs.selectedIndices.Nodup)
    (index : Nat) :
    lookupMember (toggleCell (toggleCell st name index).1 name index).1.gameState name
        = some { bs with selectedIndices := flipIndex (flipIndex bs.selectedIndices index) index }
    ∧ (∀ j, j ∈ flipIndex (flipIndex bs.selectedIndices index) index
        ↔ j ∈ bs.selectedIndices)
    ∧ calculateBingoCount (flipIndex (flipIndex bs.selectedIndices index) index)
        = calculateBingoCount bs.selectedIndices := by
  have h1 := toggleCell_state_lookup st name index bs hmem
  have h2 := toggleCell_state_lookup (toggleCell st name index).1 name index _ h1
  have hmemiff := flipIndex_flipIndex_mem bs.selectedIndices hnd index
  exact ⟨h2, hmemiff, calculateBingoCount_congr hmemiff⟩

/-- Witness for C8 on a concrete selected board. -/
theorem toggle_twice_involution_witness :
    calculateBingoCount (flipIndex (flipIndex [0, 1] 1) 1) = calculateBingoCount [0, 1] :=
  (toggle_twice_involution ⟨[("eve", ⟨[], [0, 1], none⟩)], []⟩ "eve" ⟨[], [0, 1], none⟩
    (by decide) (by decide) 1).2.2

set_option maxRecDepth 4000 in
/-- C9 as stated is false for pools with repeated entries: a 24-term pool
of a single repeated term generates a board whose 24 non-free entries are
not duplicate-free. -/
theorem board_generator_duplicate_pool :
    (newMemberBoard (List.replicate 24 "T") (fun _ => 0)).length = 25
    ∧ (newMemberBoard (List.replicate 24 "T") (fun _ => 0))[12]? = some "FREE SPACE"
    ∧ ¬((newMemberBoard (List.replicate 24 "T") (fun _ => 0)).eraseIdx 12).Nodup := by
  refine ⟨by decide, by decide, by decide⟩


/-- C9 amended: for a duplicate-free pool of ≥ 24 terms the generated board
has 25 entries with "FREE SPACE" at index 12 and the remaining 24 a
duplicate-free subset of the pool; when the pool (hence the term list) has
fewer than 12 entries, "FREE SPACE" is appended at the end instead. -/
theorem board_generator_amended (terms : List String) (rand : Nat → Nat) :
    (terms.Nodup → 24 ≤ terms.length →
      (newMemberBoard terms rand).length = 25
      ∧ (newMemberBoard terms rand)[12]? = some "FREE SPACE"
      ∧ ((newMemberBoard terms rand).eraseIdx 12).Nodup
      ∧ ((newMemberBoard terms rand).eraseIdx 12).length = 24
      ∧ (∀ x ∈ (newMemberBoard terms rand).eraseIdx 12, x ∈ terms))
    ∧ (terms.length < 12 → newMemberBoard terms rand = terms ++ ["FREE SPACE"]) := by
  constructor
  · intro hnd hlen
    have hperm := fisherYates_perm rand terms
    have hbt : newMemberBoardTerms terms rand = (fisherYates rand terms).take 24 := by
      rw [newMemberBoardTerms, if_pos hlen]
    have hbtlen : (newMemberBoardTerms terms rand).length = 24 := by
      rw [hbt, List.length_take, hperm.length_eq]
      omega
    have hboard : newMemberBoard terms rand
        = (newMemberBoardTerms terms rand).insertIdx 12 "FREE SPACE" := by
      rw [newMemberBoard]
      rw [if_pos (by omega)]
    have herase : (newMemberBoard terms rand).eraseIdx 12 = newMemberBoardTerms terms rand := by
      rw [hboard, List.eraseIdx_insertIdx]
    have hbtnodup : (newMemberBoardTerms terms rand).Nodup := by
      rw [hbt]
      exact (hperm.symm.nodup hnd).sublist (List.take_sublist 24 _)
    refine ⟨?_, ?_, ?_, ?_, ?_⟩
    · rw [hboard, List.length_insertIdx 12 _ (by omega), hbtlen]
    · rw [hboard]
      rw [List.getElem?_eq_getElem (by rw [List.length_insertIdx 12 _ (by omega), hbtlen]; omega)]
      rw [List.getElem_insertIdx_self _ _ 12 (by omega)]
    · rw [herase]
      exact hbtnodup
    · rw [herase, hbtlen]
    · intro x hx
      rw [herase, hbt] at hx
      exact hperm.mem_iff.mp ((List.take_sublist 24 _).subset hx)
  · intro hsmall
    have hbt : newMemberBoardTerms terms rand = terms := by
      rw [newMemberBoardTerms, if_neg (by omega)]
    rw [newMemberBoard]
    rw [hbt, if_neg (by omega)]

/-- Witness for C9's amended theorem on a concrete 24-term pool and a
concrete 3-term pool. -/
theorem board_generator_amended_witness :
    (newMemberBoard
        ["t01", "t02", "t03", "t04", "t05", "t06", "t07", "t08", "t09", "t10", "t11", "t12",
         "t13", "t14", "t15", "t16", "t17", "t18", "t19", "t20", "t21", "t22", "t23", "t24"]
        (fun _ => 0)).length = 25
    ∧ newMemberBoard ["u1", "u2", "u3"] (fun _ => 0) = ["u1", "u2", "u3", "FREE SPACE"] :=
  ⟨((board_generator_amended
      ["t01", "t02", "t03", "t04", "t05", "t06", "t07", "t08", "t09", "t10", "t11", "t12",
       "t13", "t14", "t15", "t16", "t17", "t18", "t19", "t20", "t21", "t22", "t23", "t24"]
      (fun _ => 0)).1 (by decide) (by decide)).1,
   (board_generator_amended ["u1", "u2", "u3"] (fun _ => 0)).2 (by decide)⟩

/-- C10: every fresh connection immediately receives an unsolicited `init`
carrying the roster, the group pool, the current `finalLineup`, and the
anonymous-viewer game state, which pre-reveal exposes each member's board,
selections and bingo count but only the `hasPredicted` flag. -/
theorem connection_init_masked (members groups : List String) (st : GlobalState)
    (hpre : st.finalLineup = []) :
    onConnection members groups st
        = [Effect.emitInit members groups (getPublicState st none) st.finalLineup]
    ∧ getPublicState st none = st.gameState.map (fun p => (p.1,
        ⟨p.2.board, p.2.selectedIndices, calculateBingoCount p.2.selectedIndices,
         .flagOnly p.2.prediction.isSome⟩)) := by
  refine ⟨rfl, ?_⟩
  unfold getPublicState
  rw [hpre]
  apply List.map_congr_left
  intro p _
  unfold memberEntryView predictionViewFor
  rw [if_neg (by simp), if_neg (by simp)]

/-- Witness for C10 at a concrete pre-reveal state. -/
theorem connection_init_masked_witness :
    getPublicState ⟨[("flo", ⟨["w"], [2], some ["G"]⟩)], []⟩ none
      = [("flo", ⟨["w"], [2], calculateBingoCount [2], .flagOnly true⟩)] :=
  (connection_init_masked [] [] ⟨[("flo", ⟨["w"], [2], some ["G"]⟩)], []⟩ rfl).2

end Bingo
